import Mathlib

/-!
Verification of the NNUE evaluation core of the Berserk chess engine
(`src/nn.c`): accumulator refresh (`RefreshAccumulator`), incremental
accumulator updates (`ApplyUpdates`), the quantized output layer
(`OutputLayer`, in its AVX2 / SSE / scalar execution strategies),
`Predict`, and the embedded-network loader (`LoadDefaultNN`).

The dimensions `N_HIDDEN` and `N_FEATURES` and the feature encoding
`FeatureIdx` are declared in headers that are not part of the given
sources, so they appear here as parameters (`n`, `nF`, `F`).

Accumulator lanes are `int16_t` in the C code and the output sums are
`int`; every operation performed on them is a fixed chain of additions,
subtractions and multiplications followed (in the output layer) by a
division, so the two's-complement machine value of each intermediate is
the wrap of the exact integer value computed below, and equalities
between the exact values transport to the machine values.  Lanes are
therefore modelled as exact integers; the float-to-integer stores of the
loader, where the width of the destination is the point of the claim,
keep an explicit wrap.
-/

namespace Berserk

/-- Constant `QUANTIZATION_PRECISION_IN` of `nn.c`. -/
def QUANTIZATION_PRECISION_IN : Int := 32

/-- Constant `QUANTIZATION_PRECISION_OUT` of `nn.c`. -/
def QUANTIZATION_PRECISION_OUT : Int := 512

/-- The process-wide weight arrays of `nn.c` (`FEATURE_WEIGHTS`,
`HIDDEN_BIASES`, `HIDDEN_WEIGHTS`, `OUTPUT_BIAS`) gathered in one
immutable store.  The matrices stay flat and are indexed exactly as the
C code indexes them: `featureWeights (feature * n + i)`,
`hiddenWeights i` and `hiddenWeights (i + n)`. -/
structure Weights where
  featureWeights : Nat → Int
  hiddenBiases : Nat → Int
  hiddenWeights : Nat → Int
  outputBias : Int

/-- The board fields `nn.c` touches: `squares` (piece code per square),
`OccBB(BOTH)` as a bitboard, `PieceBB(KING, perspective)` per
perspective, the two side flags, the current `ply` and the ply-indexed
accumulator history `accumulators[perspective][ply][lane]`. -/
structure Board where
  squares : Nat → Nat
  occBoth : Nat
  kingBB : Nat → Nat
  stm : Nat
  xstm : Nat
  ply : Nat
  accumulators : Nat → Nat → Nat → Int

/-- The `NNUpdate` diff: the removed feature indices (`removals`,
length `nr`, capacity 2) and the added ones (`additions`, length `na`,
capacity 2). -/
structure NNUpdate where
  removals : List Nat
  additions : List Nat

/-- Set-bit positions of a bitboard in ascending order: the order in
which the `popAndGetLsb` loop of `RefreshAccumulator` visits the
occupied squares of the 64-square board. -/
def bitIndices (occ : Nat) : List Nat :=
  (List.range 64).filter (fun i => occ.testBit i)

/-- Function `lsb` on a bitboard (bit position of the least significant set bit;
the C caller never passes 0). -/
def lsb (bb : Nat) : Nat :=
  (bitIndices bb).headD 0

/-- One `for (j = 0; j < N_HIDDEN; j++) acc[j] += FEATURE_WEIGHTS[f * N_HIDDEN + j]`
loop: add feature `f`'s weight row into every lane below `n`. -/
def addRow (W : Weights) (n : Nat) (acc : Nat → Int) (f : Nat) : Nat → Int :=
  fun j => if j < n then acc j + W.featureWeights (f * n + j) else acc j

/-- One `for (j = 0; j < N_HIDDEN; j++) acc[j] -= FEATURE_WEIGHTS[f * N_HIDDEN + j]`
loop: subtract feature `f`'s weight row from every lane below `n`. -/
def subRow (W : Weights) (n : Nat) (acc : Nat → Int) (f : Nat) : Nat → Int :=
  fun j => if j < n then acc j - W.featureWeights (f * n + j) else acc j

/-- The occupancy loop of `RefreshAccumulator`, folded over an explicit
square list: start from `HIDDEN_BIASES` (the `memcpy`) and for each
square add the weight row of `FeatureIdx(squares[sq], sq, kingSq,
perspective)`.  The feature encoding `F` is a parameter because
`FeatureIdx` is defined outside the given sources. -/
def refreshFold (W : Weights) (n : Nat) (F : Nat → Nat → Nat → Nat → Nat)
    (squares : Nat → Nat) (kingSq perspective : Nat) (sqs : List Nat) : Nat → Int :=
  sqs.foldl (fun acc sq => addRow W n acc (F (squares sq) sq kingSq perspective)) W.hiddenBiases

/-- Function `RefreshAccumulator` of `nn.c`: king square from the king bitboard,
then the occupancy loop over the set bits of `OccBB(BOTH)` in
`popAndGetLsb` order. -/
def RefreshAccumulator (W : Weights) (n : Nat) (F : Nat → Nat → Nat → Nat → Nat)
    (b : Board) (perspective : Nat) : Nat → Int :=
  refreshFold W n F b.squares (lsb (b.kingBB perspective)) perspective (bitIndices b.occBoth)

/-- The accumulator value `ApplyUpdates` stores at
`board->accumulators[stm][board->ply]`: if `updates->nr` is zero, a
`memcpy` of the previous ply's accumulator; otherwise seed with
`prev - row(removals[0])`, subtract the remaining removal rows, then
add the addition rows. -/
def ApplyUpdatesAcc (W : Weights) (n : Nat) (prev : Nat → Int) (u : NNUpdate) : Nat → Int :=
  match u.removals with
  | [] => prev
  | r0 :: rest => u.additions.foldl (addRow W n) (rest.foldl (subRow W n) (subRow W n prev r0))

/-- Function `ApplyUpdates` of `nn.c` at the board level: overwrite
`accumulators[stm][board->ply]` with the update of
`accumulators[stm][board->ply - 1]`, leaving every other board field
alone. -/
def ApplyUpdates (W : Weights) (n : Nat) (b : Board) (stm : Nat) (u : NNUpdate) : Board :=
  { b with
    accumulators := fun p pl =>
      if p = stm ∧ pl = b.ply then ApplyUpdatesAcc W n (b.accumulators stm (b.ply - 1)) u
      else b.accumulators p pl }

/-- The scalar (`#else`) `OutputLayer`: start from
`OUTPUT_BIAS * QUANTIZATION_PRECISION_IN`, accumulate
`max(stm[i], 0) * HIDDEN_WEIGHTS[i] + max(xstm[i], 0) * HIDDEN_WEIGHTS[i + N_HIDDEN]`
over the lanes, then divide twice with C truncating division. -/
def OutputLayer (W : Weights) (n : Nat) (stm xstm : Nat → Int) : Int :=
  (((List.range n).foldl
      (fun result i =>
        result + max (stm i) 0 * W.hiddenWeights i + max (xstm i) 0 * W.hiddenWeights (i + n))
      (W.outputBias * QUANTIZATION_PRECISION_IN)).tdiv
    QUANTIZATION_PRECISION_IN).tdiv QUANTIZATION_PRECISION_OUT

/-- One 32-bit lane of `_mm_madd_epi16` / `_mm256_madd_epi16` applied to
a clipped accumulator chunk and a hidden-weight chunk: the sum of the
two adjacent products `max(a[aOff + 2k], 0) * w[wOff + 2k]` and
`max(a[aOff + 2k + 1], 0) * w[wOff + 2k + 1]`.  (With one factor
clipped to `[0, 32767]` and the other an `int16_t`, the pair sum lies
strictly inside the signed 32-bit range, so the intrinsic computes the
exact value.) -/
def maddLane (a w : Nat → Int) (aOff wOff k : Nat) : Int :=
  max (a (aOff + 2 * k)) 0 * w (wOff + 2 * k) +
    max (a (aOff + 2 * k + 1)) 0 * w (wOff + 2 * k + 1)

/-- The AVX2 chunk loop: `WIDTH = 16` lanes of `int16_t` per `__m256i`,
`CHUNKS = N_HIDDEN / 16`, accumulating the eight 32-bit `madd` lanes of
`s0` (own side) and `s1` (opponent side). -/
def avx2Fold (W : Weights) (n : Nat) (stm xstm : Nat → Int) : (Nat → Int) × (Nat → Int) :=
  (List.range (n / 16)).foldl
    (fun s j =>
      (fun k => s.1 k + maddLane stm W.hiddenWeights (j * 16) (j * 16) k,
       fun k => s.2 k + maddLane xstm W.hiddenWeights (j * 16) (j * 16 + n) k))
    (fun _ => 0, fun _ => 0)

/-- The AVX2 horizontal reduction of the eight 32-bit lanes `r8`:
`r4 = low128(r8) + high128(r8)` (lane `k` picks up lane `k + 4`),
`r2 = r4 + (r4 >> 8 bytes)` (lane `k` picks up lane `k + 2`),
`r1 = r2 + (r2 >> 4 bytes)` and `_mm_cvtsi128_si32` extracts lane 0,
i.e. `r2 0 + r2 1`. -/
def reduceTree8 (r8 : Nat → Int) : Int :=
  (r8 0 + r8 (0 + 4) + (r8 (0 + 2) + r8 (0 + 2 + 4))) +
    (r8 1 + r8 (1 + 4) + (r8 (1 + 2) + r8 (1 + 2 + 4)))

/-- The SSE horizontal reduction of the four 32-bit lanes `r4`:
`r2 = r4 + (r4 >> 8 bytes)`, `r1 = r2 + (r2 >> 4 bytes)`, extract lane
0, i.e. `r2 0 + r2 1`. -/
def reduceTree4 (r4 : Nat → Int) : Int :=
  (r4 0 + r4 (0 + 2)) + (r4 1 + r4 (1 + 2))

/-- The AVX2 `OutputLayer`: the chunk loop, the horizontal reduction of
`r8 = s0 + s1`, add into `result` and divide twice. -/
def OutputLayerAVX2 (W : Weights) (n : Nat) (stm xstm : Nat → Int) : Int :=
  ((W.outputBias * QUANTIZATION_PRECISION_IN +
    reduceTree8 (fun k =>
      (avx2Fold W n stm xstm).1 k + (avx2Fold W n stm xstm).2 k)).tdiv
    QUANTIZATION_PRECISION_IN).tdiv QUANTIZATION_PRECISION_OUT

/-- The SSE chunk loop: `WIDTH = 8` lanes of `int16_t` per `__m128i`,
`N_HIDDEN / 8` chunks, accumulating the four 32-bit `madd` lanes of
`s0` and `s1`. -/
def sseFold (W : Weights) (n : Nat) (stm xstm : Nat → Int) : (Nat → Int) × (Nat → Int) :=
  (List.range (n / 8)).foldl
    (fun s j =>
      (fun k => s.1 k + maddLane stm W.hiddenWeights (j * 8) (j * 8) k,
       fun k => s.2 k + maddLane xstm W.hiddenWeights (j * 8) (j * 8 + n) k))
    (fun _ => 0, fun _ => 0)

/-- The SSE `OutputLayer`: the chunk loop, the horizontal reduction of
`r4 = s0 + s1`, add into `result` and divide twice. -/
def OutputLayerSSE (W : Weights) (n : Nat) (stm xstm : Nat → Int) : Int :=
  ((W.outputBias * QUANTIZATION_PRECISION_IN +
    reduceTree4 (fun k =>
      (sseFold W n stm xstm).1 k + (sseFold W n stm xstm).2 k)).tdiv
    QUANTIZATION_PRECISION_IN).tdiv QUANTIZATION_PRECISION_OUT

/-- Function `Predict` of `nn.c`: refresh both perspectives into fresh local
accumulators and combine them with `OutputLayer`. -/
def Predict (W : Weights) (n : Nat) (F : Nat → Nat → Nat → Nat → Nat) (b : Board) : Int :=
  OutputLayer W n (RefreshAccumulator W n F b b.stm) (RefreshAccumulator W n F b b.xstm)

/-- C `round`: round to nearest, halfway cases away from zero, on the
(rational) value of the double argument. -/
def roundHalfAway (q : ℚ) : Int :=
  if 0 ≤ q then ⌊q + 1 / 2⌋ else -⌊-q + 1 / 2⌋

/-- Two's-complement conversion of an integer to `int16_t`. -/
def wrap16 (x : Int) : Int :=
  (x + 2 ^ 15) % 2 ^ 16 - 2 ^ 15

/-- Two's-complement conversion of an integer to `int32_t`. -/
def wrap32 (x : Int) : Int :=
  (x + 2 ^ 31) % 2 ^ 32 - 2 ^ 31

/-- Function `LoadWeight` of `nn.c`: `round(v * precision)` stored into an
`int16_t`. -/
def LoadWeight (v : ℚ) (precision : Int) : Int :=
  wrap16 (roundHalfAway (v * precision))

/-- The embedded network resource.  `byte k` is the `k`-th byte of
`EmbedData`; `floatVal i` is the value of the single-precision float
stored at byte offset `4 * i` (so the float index 3 the loader starts
at is byte offset 12, right after the 4-byte magic and the 8-byte
hash). -/
structure EmbedRes where
  byte : Nat → Nat
  floatVal : Nat → ℚ

/-- What `LoadDefaultNN` produces: whether the non-standard-net
diagnostic was printed, the recorded `DEFAULT_NN_HASH`, and the
populated weight store. -/
structure LoadResult where
  warned : Bool
  hash : Nat
  weights : Weights

/-- Function `LoadDefaultNN` of `nn.c`: warn unless the first four bytes are
`'B' 'R' 'K' 'R'`; read the little-endian 64-bit hash from bytes
4..11; then read floats sequentially from float index 3 (byte offset
12): `N_FEATURES * N_HIDDEN` feature weights and `N_HIDDEN` hidden
biases at input precision, `2 * N_HIDDEN` hidden weights at output
precision, and one output bias at output precision stored as
`int32_t`. -/
def LoadDefaultNN (nF n : Nat) (e : EmbedRes) : LoadResult :=
  { warned := !(e.byte 0 == 66 && e.byte 1 == 82 && e.byte 2 == 75 && e.byte 3 == 82)
    hash := (List.range 8).foldl (fun h k => h + e.byte (4 + k) * 256 ^ k) 0
    weights :=
      { featureWeights := fun j => LoadWeight (e.floatVal (3 + j)) QUANTIZATION_PRECISION_IN
        hiddenBiases := fun j =>
          LoadWeight (e.floatVal (3 + nF * n + j)) QUANTIZATION_PRECISION_IN
        hiddenWeights := fun j =>
          LoadWeight (e.floatVal (3 + nF * n + n + j)) QUANTIZATION_PRECISION_OUT
        outputBias :=
          wrap32 (roundHalfAway
            (e.floatVal (3 + nF * n + n + 2 * n) * QUANTIZATION_PRECISION_OUT)) } }

/-- The accumulator dictated by the spec invariant: `hiddenBiases` plus
the lane-wise sum of the feature-weight rows of the active features. -/
def accOf (W : Weights) (n : Nat) (fs : Multiset Nat) : Nat → Int :=
  fun j => W.hiddenBiases j + (fs.map (fun f => W.featureWeights (f * n + j))).sum

/-- Concrete weight store used to instantiate hypotheses of proved
theorems at checkable inputs. -/
def sampleWeights : Weights where
  featureWeights := fun k => (k : Int) % 7 - 3
  hiddenBiases := fun i => (i : Int) % 5 - 2
  hiddenWeights := fun i => (i : Int) % 9 - 4
  outputBias := 11

/-- Concrete board used to instantiate hypotheses of proved theorems at
checkable inputs. -/
def sampleBoard : Board where
  squares := fun sq => sq % 12
  occBoth := 10
  kingBB := fun p => 2 ^ (p + 3)
  stm := 0
  xstm := 1
  ply := 2
  accumulators := fun p pl j => (p : Int) + pl * 3 + j

/-! ### Fold lemmas for the per-lane loops -/

theorem foldl_addRow (W : Weights) (n : Nat) (l : List Nat) (acc : Nat → Int)
    (j : Nat) (hj : j < n) :
    (l.foldl (addRow W n) acc) j =
      acc j + (l.map (fun f => W.featureWeights (f * n + j))).sum := by
  induction l generalizing acc with
  | nil => simp
  | cons f fs ih =>
    simp only [List.foldl_cons, List.map_cons, List.sum_cons, ih (addRow W n acc f),
      addRow, if_pos hj]
    ring

theorem foldl_subRow (W : Weights) (n : Nat) (l : List Nat) (acc : Nat → Int)
    (j : Nat) (hj : j < n) :
    (l.foldl (subRow W n) acc) j =
      acc j - (l.map (fun f => W.featureWeights (f * n + j))).sum := by
  induction l generalizing acc with
  | nil => simp
  | cons f fs ih =>
    simp only [List.foldl_cons, List.map_cons, List.sum_cons, ih (subRow W n acc f),
      subRow, if_pos hj]
    ring

theorem refreshFold_eq_sum (W : Weights) (n : Nat) (F : Nat → Nat → Nat → Nat → Nat)
    (squares : Nat → Nat) (kingSq perspective : Nat) (sqs : List Nat)
    (j : Nat) (hj : j < n) :
    refreshFold W n F squares kingSq perspective sqs j =
      W.hiddenBiases j +
        (sqs.map (fun sq =>
          W.featureWeights (F (squares sq) sq kingSq perspective * n + j))).sum := by
  have h : refreshFold W n F squares kingSq perspective sqs =
      (sqs.map (fun sq => F (squares sq) sq kingSq perspective)).foldl
        (addRow W n) W.hiddenBiases := by
    rw [List.foldl_map]
    rfl
  rw [h, foldl_addRow W n _ _ j hj, List.map_map]
  rfl

/-! ### C4: empty removal list is a no-op -/

/-- C4: for every `NNUpdate` whose removal list is empty — additions
included or not — `ApplyUpdates` leaves the current ply's accumulator
bit-identical to the previous ply's accumulator. -/
theorem c4_empty_removals_noop (W : Weights) (n : Nat) (prev : Nat → Int) (u : NNUpdate)
    (h : u.removals = []) : ApplyUpdatesAcc W n prev u = prev := by
  unfold ApplyUpdatesAcc
  rw [h]

/-- C4 witness: a diff with no removals but two additions leaves a
concrete accumulator unchanged. -/
theorem c4_witness :
    ApplyUpdatesAcc sampleWeights 4 (fun i : Nat => (i : Int)) ⟨[], [5, 7]⟩ =
      fun i : Nat => (i : Int) :=
  c4_empty_removals_noop sampleWeights 4 (fun i : Nat => (i : Int)) ⟨[], [5, 7]⟩ rfl

/-! ### C10: frame property of `ApplyUpdates` -/

/-- C10: `ApplyUpdates` writes only `accumulators[stm][board->ply]`
(with the update of `accumulators[stm][board->ply - 1]`); every
accumulator at any other (perspective, ply) pair and every other board
field is unchanged.  The weight store is passed immutably, so the
weight arrays cannot change. -/
theorem c10_applyUpdates_frame (W : Weights) (n : Nat) (b : Board) (stm : Nat)
    (u : NNUpdate) (p pl : Nat) (h : ¬(p = stm ∧ pl = b.ply)) :
    (ApplyUpdates W n b stm u).accumulators p pl = b.accumulators p pl ∧
    (ApplyUpdates W n b stm u).accumulators stm b.ply =
      ApplyUpdatesAcc W n (b.accumulators stm (b.ply - 1)) u ∧
    (ApplyUpdates W n b stm u).squares = b.squares ∧
    (ApplyUpdates W n b stm u).occBoth = b.occBoth ∧
    (ApplyUpdates W n b stm u).kingBB = b.kingBB ∧
    (ApplyUpdates W n b stm u).stm = b.stm ∧
    (ApplyUpdates W n b stm u).xstm = b.xstm ∧
    (ApplyUpdates W n b stm u).ply = b.ply := by
  refine ⟨?_, ?_, rfl, rfl, rfl, rfl, rfl, rfl⟩
  · simp only [ApplyUpdates, if_neg h]
  · simp [ApplyUpdates]

/-- C10 witness: the frame property at a concrete board, update and
untouched accumulator slot. -/
theorem c10_witness :
    (ApplyUpdates sampleWeights 4 sampleBoard 0 ⟨[1], [2]⟩).accumulators 1 2 =
      sampleBoard.accumulators 1 2 ∧
    (ApplyUpdates sampleWeights 4 sampleBoard 0 ⟨[1], [2]⟩).accumulators 0 sampleBoard.ply =
      ApplyUpdatesAcc sampleWeights 4
        (sampleBoard.accumulators 0 (sampleBoard.ply - 1)) ⟨[1], [2]⟩ ∧
    (ApplyUpdates sampleWeights 4 sampleBoard 0 ⟨[1], [2]⟩).squares = sampleBoard.squares ∧
    (ApplyUpdates sampleWeights 4 sampleBoard 0 ⟨[1], [2]⟩).occBoth = sampleBoard.occBoth ∧
    (ApplyUpdates sampleWeights 4 sampleBoard 0 ⟨[1], [2]⟩).kingBB = sampleBoard.kingBB ∧
    (ApplyUpdates sampleWeights 4 sampleBoard 0 ⟨[1], [2]⟩).stm = sampleBoard.stm ∧
    (ApplyUpdates sampleWeights 4 sampleBoard 0 ⟨[1], [2]⟩).xstm = sampleBoard.xstm ∧
    (ApplyUpdates sampleWeights 4 sampleBoard 0 ⟨[1], [2]⟩).ply = sampleBoard.ply :=
  c10_applyUpdates_frame sampleWeights 4 sampleBoard 0 ⟨[1], [2]⟩ 1 2 (by decide)

/-! ### C1: incremental update versus full refresh -/

/-- Weight store witnessing that a diff with no removals but one
addition is treated as a no-op by `ApplyUpdates`. -/
def c1Weights : Weights where
  featureWeights := fun _ => 1
  hiddenBiases := fun _ => 0
  hiddenWeights := fun _ => 0
  outputBias := 0

/-- C1, counterexample to the claim as stated: with no feature active
before the move (`prev = accOf ∅`), a diff whose removal list is empty
and whose addition list holds feature 0 describes exactly the feature-set
change `∅ → {0}` (the stated hypotheses hold), yet `ApplyUpdates` takes
the `nr == 0` fast path and copies `prev`, so the new accumulator misses
the added weight row and differs from the refresh value `accOf {0}`. -/
theorem c1_counterexample :
    ({0} : Multiset Nat) = (0 : Multiset Nat) - ↑([] : List Nat) + ↑([0] : List Nat) ∧
    (↑([] : List Nat) : Multiset Nat) ≤ (0 : Multiset Nat) ∧
    ApplyUpdatesAcc c1Weights 1 (accOf c1Weights 1 0) ⟨[], [0]⟩ 0 = accOf c1Weights 1 0 0 ∧
    ApplyUpdatesAcc c1Weights 1 (accOf c1Weights 1 0) ⟨[], [0]⟩ 0 ≠
      accOf c1Weights 1 ({0} : Multiset Nat) 0 := by
  refine ⟨by decide, by decide, rfl, ?_⟩
  simp [ApplyUpdatesAcc, accOf, c1Weights]

/-- C1 (amended): if the previous accumulator equals `hiddenBiases`
plus the sum of the feature-weight rows of the features active before
the move, and the diff's removals/additions describe exactly the
feature-set change of the move, **and the diff has at least one removal
or no additions** (the `nr == 0` fast path silently drops additions),
then `ApplyUpdates` yields, lane for lane, the same accumulator that
`RefreshAccumulator` computes from scratch on the post-move board,
namely `hiddenBiases` plus the sum of the rows of the features active
after the move. -/
theorem c1_applyUpdates_matches_refresh (W : Weights) (n : Nat) (prev : Nat → Int)
    (u : NNUpdate) (before after : Multiset Nat)
    (hprev : ∀ j, j < n → prev j = accOf W n before j)
    (hsub : (↑u.removals : Multiset Nat) ≤ before)
    (hafter : after = before - ↑u.removals + ↑u.additions)
    (hu : u.removals ≠ [] ∨ u.additions = [])
    (j : Nat) (hj : j < n) :
    ApplyUpdatesAcc W n prev u j = accOf W n after j := by
  obtain ⟨d, hd⟩ := Multiset.le_iff_exists_add.mp hsub
  obtain ⟨rs, as⟩ := u
  cases rs with
  | nil =>
    rcases hu with hu | hu
    · exact absurd rfl hu
    · subst hu
      have hb : after = before := by
        simp [hafter]
      rw [hb]
      exact hprev j hj
  | cons r0 rest =>
    have hsum : ApplyUpdatesAcc W n prev ⟨r0 :: rest, as⟩ j =
        prev j - W.featureWeights (r0 * n + j) -
          (rest.map (fun f => W.featureWeights (f * n + j))).sum +
          (as.map (fun f => W.featureWeights (f * n + j))).sum := by
      show (as.foldl (addRow W n) (rest.foldl (subRow W n) (subRow W n prev r0))) j = _
      rw [foldl_addRow W n as _ j hj, foldl_subRow W n rest _ j hj, subRow, if_pos hj]
    have hd' : after = d + ↑as := by
      rw [hafter, hd, add_tsub_cancel_left]
    have hbefore : ((before.map (fun f => W.featureWeights (f * n + j))).sum : Int) =
        W.featureWeights (r0 * n + j) +
          (rest.map (fun f => W.featureWeights (f * n + j))).sum +
          (d.map (fun f => W.featureWeights (f * n + j))).sum := by
      rw [hd]
      simp [add_comm, add_assoc]
    have hafterSum : ((after.map (fun f => W.featureWeights (f * n + j))).sum : Int) =
        (d.map (fun f => W.featureWeights (f * n + j))).sum +
          (as.map (fun f => W.featureWeights (f * n + j))).sum := by
      rw [hd']
      simp
    rw [hsum, hprev j hj]
    simp only [accOf, hbefore, hafterSum]
    ring

/-- C1 witness for the amended theorem: a one-removal/one-addition diff
on a concrete two-lane store matches the refresh value of the post-move
feature set. -/
theorem c1_witness :
    ApplyUpdatesAcc sampleWeights 2 (accOf sampleWeights 2 {1, 2}) ⟨[1], [3]⟩ 0 =
      accOf sampleWeights 2 ({2, 3} : Multiset Nat) 0 :=
  c1_applyUpdates_matches_refresh sampleWeights 2 (accOf sampleWeights 2 {1, 2})
    ⟨[1], [3]⟩ {1, 2} {2, 3} (fun _ _ => rfl) (by decide) (by decide)
    (Or.inl (by decide)) 0 (by decide)

/-! ### C7: refresh equals the biased row sum, independent of order -/

/-- Concrete stand-in for the (externally defined) `FeatureIdx`
encoding, used to instantiate hypotheses at checkable inputs. -/
def sampleF : Nat → Nat → Nat → Nat → Nat :=
  fun pc sq kingSq p => pc + sq + kingSq + p

/-- C7: the accumulator produced by `RefreshAccumulator` equals
`hiddenBiases` plus the lane-wise sum of the feature-weight rows of
every occupied square's feature index, and the occupancy fold yields
that same value on every enumeration order (permutation) of the
occupied squares. -/
theorem c7_refresh_sum_perm (W : Weights) (n : Nat) (F : Nat → Nat → Nat → Nat → Nat)
    (b : Board) (perspective : Nat) (l : List Nat)
    (hl : l.Perm (bitIndices b.occBoth)) (i : Nat) (hi : i < n) :
    RefreshAccumulator W n F b perspective i =
      W.hiddenBiases i +
        ((bitIndices b.occBoth).map (fun sq =>
          W.featureWeights
            (F (b.squares sq) sq (lsb (b.kingBB perspective)) perspective * n + i))).sum ∧
    refreshFold W n F b.squares (lsb (b.kingBB perspective)) perspective l i =
      RefreshAccumulator W n F b perspective i := by
  constructor
  · exact refreshFold_eq_sum W n F b.squares _ perspective _ i hi
  · rw [refreshFold_eq_sum W n F b.squares _ perspective l i hi]
    rw [RefreshAccumulator, refreshFold_eq_sum W n F b.squares _ perspective _ i hi]
    have := (hl.map (fun sq =>
      W.featureWeights
        (F (b.squares sq) sq (lsb (b.kingBB perspective)) perspective * n + i))).sum_eq
    rw [this]

/-- C7 witness: on a concrete board with squares {1, 3} occupied, the
refresh value is the biased row sum and the reversed enumeration order
gives the same accumulator. -/
theorem c7_witness :
    RefreshAccumulator sampleWeights 4 sampleF sampleBoard 0 0 =
      sampleWeights.hiddenBiases 0 +
        ((bitIndices sampleBoard.occBoth).map (fun sq =>
          sampleWeights.featureWeights
            (sampleF (sampleBoard.squares sq) sq (lsb (sampleBoard.kingBB 0)) 0 * 4 + 0))).sum ∧
    refreshFold sampleWeights 4 sampleF sampleBoard.squares (lsb (sampleBoard.kingBB 0)) 0
        [3, 1] 0 =
      RefreshAccumulator sampleWeights 4 sampleF sampleBoard 0 0 :=
  c7_refresh_sum_perm sampleWeights 4 sampleF sampleBoard 0 [3, 1] (by decide) 0 (by decide)

/-! ### C8: `Predict` is deterministic -/

/-- Board sharing every field `Predict` reads with `sampleBoard` but
with a different ply and a different accumulator history. -/
def sampleBoardAlt : Board :=
  { sampleBoard with ply := 7, accumulators := fun _ _ _ => 0 }

/-- C8: `Predict` consumes only the immutable weights and the board's
occupancy, piece placement, king bitboards and side flags; it refreshes
both perspectives into local accumulators, so two calls on an unchanged
board — whatever happened to the ply counter or the stored accumulator
history in between — return the same integer score. -/
theorem c8_predict_deterministic (W : Weights) (n : Nat)
    (F : Nat → Nat → Nat → Nat → Nat) (b c : Board)
    (hsq : b.squares = c.squares) (hocc : b.occBoth = c.occBoth)
    (hking : b.kingBB = c.kingBB) (hstm : b.stm = c.stm) (hxstm : b.xstm = c.xstm) :
    Predict W n F b = Predict W n F c := by
  unfold Predict RefreshAccumulator
  rw [hsq, hocc, hking, hstm, hxstm]

/-- C8 witness: the same score on two concrete boards that agree on
everything `Predict` reads but differ in ply and accumulator history. -/
theorem c8_witness :
    Predict sampleWeights 4 sampleF sampleBoard = Predict sampleWeights 4 sampleF sampleBoardAlt :=
  c8_predict_deterministic sampleWeights 4 sampleF sampleBoard sampleBoardAlt
    rfl rfl rfl rfl rfl

/-! ### Truncating-division composition -/

theorem tdiv_ofNat_ofNat (a m k : Nat) :
    ((a : Int).tdiv ↑m).tdiv ↑k = (a : Int).tdiv (↑(m * k)) := by
  rw [← Int.ofNat_tdiv, ← Int.ofNat_tdiv, ← Int.ofNat_tdiv, Nat.div_div_eq_div_mul]

theorem tdiv_tdiv_natCast (x : Int) (m k : Nat) :
    (x.tdiv ↑m).tdiv ↑k = x.tdiv ↑(m * k) := by
  cases x with
  | ofNat a => exact tdiv_ofNat_ofNat a m k
  | negSucc a =>
    have h : (Int.negSucc a) = -((a + 1 : Nat) : Int) := by
      rw [Int.negSucc_eq]
      push_cast
      ring
    rw [h, Int.neg_tdiv, Int.neg_tdiv, Int.neg_tdiv, tdiv_ofNat_ofNat]

/-- The C expression `result / QUANTIZATION_PRECISION_IN / QUANTIZATION_PRECISION_OUT`
with C truncating division equals one truncating division by
`32 * 512`. -/
theorem tdiv_in_out (x : Int) :
    (x.tdiv QUANTIZATION_PRECISION_IN).tdiv QUANTIZATION_PRECISION_OUT =
      x.tdiv (QUANTIZATION_PRECISION_IN * QUANTIZATION_PRECISION_OUT) := by
  have h := tdiv_tdiv_natCast x 32 512
  norm_num at h
  show (x.tdiv 32).tdiv 512 = x.tdiv (32 * 512)
  norm_num [h]

/-! ### Sum decomposition helpers for the output layer -/

theorem sum_range_add_split (f : Nat → Int) (a b : Nat) :
    ∑ i in Finset.range (a + b), f i =
      (∑ i in Finset.range a, f i) + ∑ r in Finset.range b, f (a + r) := by
  induction b with
  | zero => simp
  | succ b ih =>
    rw [Nat.add_succ, Finset.sum_range_succ, ih, Finset.sum_range_succ]
    ring

theorem sum_range_chunks (f : Nat → Int) (c w : Nat) :
    ∑ i in Finset.range (c * w), f i =
      ∑ j in Finset.range c, ∑ r in Finset.range w, f (j * w + r) := by
  induction c with
  | zero => simp
  | succ c ih =>
    rw [Nat.succ_mul, sum_range_add_split, ih, Finset.sum_range_succ]

theorem sum_range_pairs (g : Nat → Int) (m : Nat) :
    ∑ i in Finset.range (2 * m), g i =
      ∑ k in Finset.range m, (g (2 * k) + g (2 * k + 1)) := by
  induction m with
  | zero => simp
  | succ m ih =>
    have h2 : ∑ r in Finset.range 2, g (2 * m + r) = g (2 * m) + g (2 * m + 1) := by
      simp [Finset.sum_range_succ]
    rw [Nat.mul_succ, sum_range_add_split, ih, h2, Finset.sum_range_succ]

/-- The scalar accumulation loop of `OutputLayer` as two range sums. -/
theorem outputLayer_foldl (W : Weights) (n : Nat) (stm xstm : Nat → Int)
    (init : Int) (c : Nat) :
    (List.range c).foldl
      (fun result i =>
        result + max (stm i) 0 * W.hiddenWeights i + max (xstm i) 0 * W.hiddenWeights (i + n))
      init =
      init + ((∑ i in Finset.range c, max (stm i) 0 * W.hiddenWeights i) +
        ∑ i in Finset.range c, max (xstm i) 0 * W.hiddenWeights (i + n)) := by
  induction c with
  | zero => simp
  | succ c ih =>
    rw [List.range_succ, List.foldl_append, List.foldl_cons, List.foldl_nil, ih,
      Finset.sum_range_succ, Finset.sum_range_succ]
    ring

/-! ### C3: the scalar output-layer formula -/

/-- C3: the scalar `OutputLayer` returns the truncating quotient of
`outputBias * inputPrecision` plus the dot product of the clipped own
accumulator against the first half of `hiddenWeights` plus the dot
product of the clipped opponent accumulator against the second half,
divided by `inputPrecision * outputPrecision = 32 * 512`. -/
theorem c3_outputLayer_formula (W : Weights) (n : Nat) (stm xstm : Nat → Int) :
    OutputLayer W n stm xstm =
      (W.outputBias * QUANTIZATION_PRECISION_IN +
        ((∑ i in Finset.range n, max (stm i) 0 * W.hiddenWeights i) +
          ∑ i in Finset.range n, max (xstm i) 0 * W.hiddenWeights (i + n))).tdiv
        (QUANTIZATION_PRECISION_IN * QUANTIZATION_PRECISION_OUT) := by
  unfold OutputLayer
  rw [outputLayer_foldl, tdiv_in_out]

/-! ### C2: the three execution strategies agree -/

theorem foldl_pair_sums (f g : Nat → Nat → Int) (c : Nat) :
    (List.range c).foldl
      (fun (s : (Nat → Int) × (Nat → Int)) j =>
        (fun k => s.1 k + f j k, fun k => s.2 k + g j k))
      (fun _ => 0, fun _ => 0) =
      (fun k => ∑ j in Finset.range c, f j k, fun k => ∑ j in Finset.range c, g j k) := by
  induction c with
  | zero => simp
  | succ c ih =>
    rw [List.range_succ, List.foldl_append, List.foldl_cons, List.foldl_nil, ih]
    refine Prod.ext ?_ ?_ <;> funext k <;> simp [Finset.sum_range_succ]

theorem avx2Fold_eq (W : Weights) (n : Nat) (stm xstm : Nat → Int) :
    avx2Fold W n stm xstm =
      (fun k => ∑ j in Finset.range (n / 16), maddLane stm W.hiddenWeights (j * 16) (j * 16) k,
       fun k => ∑ j in Finset.range (n / 16),
         maddLane xstm W.hiddenWeights (j * 16) (j * 16 + n) k) :=
  foldl_pair_sums (fun j k => maddLane stm W.hiddenWeights (j * 16) (j * 16) k)
    (fun j k => maddLane xstm W.hiddenWeights (j * 16) (j * 16 + n) k) (n / 16)

theorem sseFold_eq (W : Weights) (n : Nat) (stm xstm : Nat → Int) :
    sseFold W n stm xstm =
      (fun k => ∑ j in Finset.range (n / 8), maddLane stm W.hiddenWeights (j * 8) (j * 8) k,
       fun k => ∑ j in Finset.range (n / 8),
         maddLane xstm W.hiddenWeights (j * 8) (j * 8 + n) k) :=
  foldl_pair_sums (fun j k => maddLane stm W.hiddenWeights (j * 8) (j * 8) k)
    (fun j k => maddLane xstm W.hiddenWeights (j * 8) (j * 8 + n) k) (n / 8)

theorem reduceTree8_sum (v : Nat → Int) :
    reduceTree8 v = ∑ k in Finset.range 8, v k := by
  simp [reduceTree8, Finset.sum_range_succ]
  ring

theorem reduceTree4_sum (v : Nat → Int) :
    reduceTree4 v = ∑ k in Finset.range 4, v k := by
  simp [reduceTree4, Finset.sum_range_succ]
  ring

theorem madd_block_sum (a w : Nat → Int) (off woff m : Nat) :
    ∑ k in Finset.range m, maddLane a w off woff k =
      ∑ i in Finset.range (2 * m), max (a (off + i)) 0 * w (woff + i) := by
  rw [sum_range_pairs]
  exact Finset.sum_congr rfl (fun k _ => rfl)

/-- The pre-division accumulation of the AVX2 kernel equals the two
scalar dot products. -/
theorem avx2_lanes_eq_sums (W : Weights) (m : Nat) (stm xstm : Nat → Int) :
    (∑ k in Finset.range 8,
      ((avx2Fold W (16 * m) stm xstm).1 k + (avx2Fold W (16 * m) stm xstm).2 k)) =
      (∑ i in Finset.range (16 * m), max (stm i) 0 * W.hiddenWeights i) +
        ∑ i in Finset.range (16 * m), max (xstm i) 0 * W.hiddenWeights (i + 16 * m) := by
  have hc : 16 * m / 16 = m := Nat.mul_div_cancel_left m (by norm_num)
  rw [avx2Fold_eq]
  simp only [hc]
  rw [Finset.sum_add_distrib, Finset.sum_comm, Finset.sum_comm
    (s := Finset.range 8) (t := Finset.range m)]
  have hstm : ∀ j : Nat,
      (∑ k in Finset.range 8, maddLane stm W.hiddenWeights (j * 16) (j * 16) k) =
        ∑ i in Finset.range 16, max (stm (j * 16 + i)) 0 * W.hiddenWeights (j * 16 + i) := by
    intro j
    have h := madd_block_sum stm W.hiddenWeights (j * 16) (j * 16) 8
    norm_num at h
    exact h
  have hxstm : ∀ j : Nat,
      (∑ k in Finset.range 8, maddLane xstm W.hiddenWeights (j * 16) (j * 16 + 16 * m) k) =
        ∑ i in Finset.range 16,
          max (xstm (j * 16 + i)) 0 * W.hiddenWeights (j * 16 + i + 16 * m) := by
    intro j
    have h := madd_block_sum xstm W.hiddenWeights (j * 16) (j * 16 + 16 * m) 8
    norm_num at h
    rw [h]
    refine Finset.sum_congr rfl (fun i _ => ?_)
    have : j * 16 + 16 * m + i = j * 16 + i + 16 * m := by ring
    rw [this]
  rw [Finset.sum_congr rfl (fun j _ => hstm j), Finset.sum_congr rfl (fun j _ => hxstm j)]
  have e : Finset.range (16 * m) = Finset.range (m * 16) := by
    rw [Nat.mul_comm]
  have hch1 : ∑ i in Finset.range (16 * m), max (stm i) 0 * W.hiddenWeights i =
      ∑ j in Finset.range m, ∑ r in Finset.range 16,
        max (stm (j * 16 + r)) 0 * W.hiddenWeights (j * 16 + r) := by
    rw [e]
    exact sum_range_chunks (fun i => max (stm i) 0 * W.hiddenWeights i) m 16
  have hch2 : ∑ i in Finset.range (16 * m), max (xstm i) 0 * W.hiddenWeights (i + 16 * m) =
      ∑ j in Finset.range m, ∑ r in Finset.range 16,
        max (xstm (j * 16 + r)) 0 * W.hiddenWeights (j * 16 + r + 16 * m) := by
    rw [e]
    exact sum_range_chunks (fun i => max (xstm i) 0 * W.hiddenWeights (i + 16 * m)) m 16
  rw [hch1, hch2]

/-- The pre-division accumulation of the SSE kernel equals the two
scalar dot products. -/
theorem sse_lanes_eq_sums (W : Weights) (m : Nat) (stm xstm : Nat → Int) :
    (∑ k in Finset.range 4,
      ((sseFold W (16 * m) stm xstm).1 k + (sseFold W (16 * m) stm xstm).2 k)) =
      (∑ i in Finset.range (16 * m), max (stm i) 0 * W.hiddenWeights i) +
        ∑ i in Finset.range (16 * m), max (xstm i) 0 * W.hiddenWeights (i + 16 * m) := by
  have hc : 16 * m / 8 = 2 * m := by
    omega
  rw [sseFold_eq]
  simp only [hc]
  rw [Finset.sum_add_distrib, Finset.sum_comm, Finset.sum_comm
    (s := Finset.range 4) (t := Finset.range (2 * m))]
  have hstm : ∀ j : Nat,
      (∑ k in Finset.range 4, maddLane stm W.hiddenWeights (j * 8) (j * 8) k) =
        ∑ i in Finset.range 8, max (stm (j * 8 + i)) 0 * W.hiddenWeights (j * 8 + i) := by
    intro j
    have h := madd_block_sum stm W.hiddenWeights (j * 8) (j * 8) 4
    norm_num at h
    exact h
  have hxstm : ∀ j : Nat,
      (∑ k in Finset.range 4, maddLane xstm W.hiddenWeights (j * 8) (j * 8 + 16 * m) k) =
        ∑ i in Finset.range 8,
          max (xstm (j * 8 + i)) 0 * W.hiddenWeights (j * 8 + i + 16 * m) := by
    intro j
    have h := madd_block_sum xstm W.hiddenWeights (j * 8) (j * 8 + 16 * m) 4
    norm_num at h
    rw [h]
    refine Finset.sum_congr rfl (fun i _ => ?_)
    have : j * 8 + 16 * m + i = j * 8 + i + 16 * m := by ring
    rw [this]
  rw [Finset.sum_congr rfl (fun j _ => hstm j), Finset.sum_congr rfl (fun j _ => hxstm j)]
  have e : Finset.range (16 * m) = Finset.range (2 * m * 8) := by
    congr 1
    ring
  have hch1 : ∑ i in Finset.range (16 * m), max (stm i) 0 * W.hiddenWeights i =
      ∑ j in Finset.range (2 * m), ∑ r in Finset.range 8,
        max (stm (j * 8 + r)) 0 * W.hiddenWeights (j * 8 + r) := by
    rw [e]
    exact sum_range_chunks (fun i => max (stm i) 0 * W.hiddenWeights i) (2 * m) 8
  have hch2 : ∑ i in Finset.range (16 * m), max (xstm i) 0 * W.hiddenWeights (i + 16 * m) =
      ∑ j in Finset.range (2 * m), ∑ r in Finset.range 8,
        max (xstm (j * 8 + r)) 0 * W.hiddenWeights (j * 8 + r + 16 * m) := by
    rw [e]
    exact sum_range_chunks (fun i => max (xstm i) 0 * W.hiddenWeights (i + 16 * m)) (2 * m) 8
  rw [hch1, hch2]

/-- C2: on a hidden width divisible by 16 (the vector kernels assume
`N_HIDDEN` splits into whole 16-lane and 8-lane chunks), the AVX2
wide-vector, the SSE narrow-vector and the scalar `OutputLayer` return
the same integer score for every pair of input accumulators. -/
theorem c2_outputLayer_strategies (W : Weights) (n : Nat) (stm xstm : Nat → Int)
    (h16 : 16 ∣ n) :
    OutputLayerAVX2 W n stm xstm = OutputLayer W n stm xstm ∧
    OutputLayerSSE W n stm xstm = OutputLayer W n stm xstm := by
  obtain ⟨m, rfl⟩ := h16
  constructor
  · unfold OutputLayerAVX2 OutputLayer
    rw [outputLayer_foldl, reduceTree8_sum, avx2_lanes_eq_sums]
  · unfold OutputLayerSSE OutputLayer
    rw [outputLayer_foldl, reduceTree4_sum, sse_lanes_eq_sums]

/-- C2 witness: the three strategies agree on a concrete 16-lane
instance. -/
theorem c2_witness :
    OutputLayerAVX2 sampleWeights 16 (fun i : Nat => (i : Int) - 7) (fun i : Nat => 5 - i) =
      OutputLayer sampleWeights 16 (fun i : Nat => (i : Int) - 7) (fun i : Nat => 5 - i) ∧
    OutputLayerSSE sampleWeights 16 (fun i : Nat => (i : Int) - 7) (fun i : Nat => 5 - i) =
      OutputLayer sampleWeights 16 (fun i : Nat => (i : Int) - 7) (fun i : Nat => 5 - i) :=
  c2_outputLayer_strategies sampleWeights 16 (fun i : Nat => (i : Int) - 7)
    (fun i : Nat => 5 - i) (by decide)

/-! ### Loader: wrap and rounding facts -/

theorem wrap16_eq_self {x : Int} (hlo : -32768 ≤ x) (hhi : x ≤ 32767) : wrap16 x = x := by
  unfold wrap16
  norm_num
  omega

theorem wrap32_eq_self {x : Int} (hlo : -2147483648 ≤ x) (hhi : x ≤ 2147483647) :
    wrap32 x = x := by
  unfold wrap32
  norm_num
  omega

theorem roundHalfAway_close (q : ℚ) : |((roundHalfAway q : Int) : ℚ) - q| ≤ 1 / 2 := by
  unfold roundHalfAway
  split
  · have h1 : ((⌊q + 1 / 2⌋ : Int) : ℚ) ≤ q + 1 / 2 := Int.floor_le _
    have h2 : q + 1 / 2 - 1 < ((⌊q + 1 / 2⌋ : Int) : ℚ) := Int.sub_one_lt_floor _
    rw [abs_le]
    constructor <;> linarith
  · have h1 : ((⌊-q + 1 / 2⌋ : Int) : ℚ) ≤ -q + 1 / 2 := Int.floor_le _
    have h2 : -q + 1 / 2 - 1 < ((⌊-q + 1 / 2⌋ : Int) : ℚ) := Int.sub_one_lt_floor _
    rw [abs_le]
    push_cast
    constructor <;> linarith

/-! ### C5: magic mismatch warns but never fails the load -/

/-- C5: `LoadDefaultNN` emits its diagnostic exactly when the first
four bytes of the embedded resource differ from `'B' 'R' 'K' 'R'`
(66, 82, 75, 82), and two resources that agree on every byte from
offset 4 on and on every float are loaded into the same hash and the
same weight store — the magic bytes influence nothing but the
warning. -/
theorem c5_loader_magic_warning (nF n : Nat) (e e2 : EmbedRes)
    (hb : ∀ k, 4 ≤ k → e.byte k = e2.byte k)
    (hf : ∀ k, e.floatVal k = e2.floatVal k) :
    ((LoadDefaultNN nF n e).warned = true ↔
      ¬(e.byte 0 = 66 ∧ e.byte 1 = 82 ∧ e.byte 2 = 75 ∧ e.byte 3 = 82)) ∧
    (LoadDefaultNN nF n e).hash = (LoadDefaultNN nF n e2).hash ∧
    (LoadDefaultNN nF n e).weights = (LoadDefaultNN nF n e2).weights := by
  refine ⟨?_, ?_, ?_⟩
  · simp [LoadDefaultNN, not_and_or, Bool.and_eq_true, beq_iff_eq]
    tauto
  · have hr : List.range 8 = [0, 1, 2, 3, 4, 5, 6, 7] := rfl
    simp only [LoadDefaultNN, hr, List.foldl_cons, List.foldl_nil]
    rw [hb 4 (by norm_num), hb 5 (by norm_num), hb 6 (by norm_num), hb 7 (by norm_num),
      hb 8 (by norm_num), hb 9 (by norm_num), hb 10 (by norm_num), hb 11 (by norm_num)]
  · simp only [LoadDefaultNN, Weights.mk.injEq]
    refine ⟨funext fun j => ?_, funext fun j => ?_, funext fun j => ?_, ?_⟩ <;> rw [hf]

/-- Concrete embedded resource with a non-matching magic. -/
def sampleEmbedA : EmbedRes where
  byte := fun k => k
  floatVal := fun i => (i : ℚ) / 4

/-- Concrete embedded resource identical to `sampleEmbedA` from byte 4
on, but with the standard magic. -/
def sampleEmbedB : EmbedRes where
  byte := fun k => if k < 4 then [66, 82, 75, 82].getD k 0 else k
  floatVal := fun i => (i : ℚ) / 4

/-- C5 witness: a mismatched-magic resource warns, and it loads the
same hash and weights as the matching-magic resource that shares its
tail. -/
theorem c5_witness :
    ((LoadDefaultNN 1 1 sampleEmbedA).warned = true ↔
      ¬(sampleEmbedA.byte 0 = 66 ∧ sampleEmbedA.byte 1 = 82 ∧
        sampleEmbedA.byte 2 = 75 ∧ sampleEmbedA.byte 3 = 82)) ∧
    (LoadDefaultNN 1 1 sampleEmbedA).hash = (LoadDefaultNN 1 1 sampleEmbedB).hash ∧
    (LoadDefaultNN 1 1 sampleEmbedA).weights = (LoadDefaultNN 1 1 sampleEmbedB).weights :=
  c5_loader_magic_warning 1 1 sampleEmbedA sampleEmbedB
    (fun k hk => by
      simp [sampleEmbedA, sampleEmbedB, Nat.not_lt.mpr hk])
    (fun k => rfl)

/-! ### C6: layout and quantization of the loader -/

/-- C6: `LoadDefaultNN` records bytes 4..11 as the little-endian 64-bit
hash and reads floats in fixed order from float index 3 (byte offset
12): feature weight `j` comes from float `3 + j` and is stored as
`round(v * 32)` in an `int16_t`; hidden bias `j` from float
`3 + nF*n + j` at the same precision; hidden weight `j` from float
`3 + nF*n + n + j` as `round(v * 512)` in an `int16_t`; the output bias
from float `3 + nF*n + n + 2*n` as `round(v * 512)` in an `int32_t`.
The bounds hypotheses pin the rounded values inside the destination
widths (out-of-range stores are float-to-integer overflow, undefined
behaviour in the C source). -/
theorem c6_loader_layout (nF n : Nat) (e : EmbedRes) (jf jb jh : Nat)
    (hjf : jf < nF * n) (hjb : jb < n) (hjh : jh < 2 * n)
    (hf1 : |roundHalfAway (e.floatVal (3 + jf) * 32)| ≤ 32767)
    (hf2 : |roundHalfAway (e.floatVal (3 + nF * n + jb) * 32)| ≤ 32767)
    (hf3 : |roundHalfAway (e.floatVal (3 + nF * n + n + jh) * 512)| ≤ 32767)
    (hf4 : |roundHalfAway (e.floatVal (3 + nF * n + n + 2 * n) * 512)| ≤ 2147483647) :
    (LoadDefaultNN nF n e).weights.featureWeights jf =
      roundHalfAway (e.floatVal (3 + jf) * 32) ∧
    (LoadDefaultNN nF n e).weights.hiddenBiases jb =
      roundHalfAway (e.floatVal (3 + nF * n + jb) * 32) ∧
    (LoadDefaultNN nF n e).weights.hiddenWeights jh =
      roundHalfAway (e.floatVal (3 + nF * n + n + jh) * 512) ∧
    (LoadDefaultNN nF n e).weights.outputBias =
      roundHalfAway (e.floatVal (3 + nF * n + n + 2 * n) * 512) ∧
    (LoadDefaultNN nF n e).hash =
      e.byte 4 + e.byte 5 * 256 + e.byte 6 * 256 ^ 2 + e.byte 7 * 256 ^ 3 +
        e.byte 8 * 256 ^ 4 + e.byte 9 * 256 ^ 5 + e.byte 10 * 256 ^ 6 +
        e.byte 11 * 256 ^ 7 := by
  have hqin : ((QUANTIZATION_PRECISION_IN : Int) : ℚ) = 32 := by
    norm_num [QUANTIZATION_PRECISION_IN]
  have hqout : ((QUANTIZATION_PRECISION_OUT : Int) : ℚ) = 512 := by
    norm_num [QUANTIZATION_PRECISION_OUT]
  refine ⟨?_, ?_, ?_, ?_, ?_⟩
  · show wrap16 (roundHalfAway (e.floatVal (3 + jf) * QUANTIZATION_PRECISION_IN)) = _
    rw [hqin]
    obtain ⟨h1, h2⟩ := abs_le.mp hf1
    exact wrap16_eq_self (by omega) (by omega)
  · show wrap16 (roundHalfAway (e.floatVal (3 + nF * n + jb) * QUANTIZATION_PRECISION_IN)) = _
    rw [hqin]
    obtain ⟨h1, h2⟩ := abs_le.mp hf2
    exact wrap16_eq_self (by omega) (by omega)
  · show wrap16 (roundHalfAway (e.floatVal (3 + nF * n + n + jh) * QUANTIZATION_PRECISION_OUT)) = _
    rw [hqout]
    obtain ⟨h1, h2⟩ := abs_le.mp hf3
    exact wrap16_eq_self (by omega) (by omega)
  · show wrap32 (roundHalfAway
      (e.floatVal (3 + nF * n + n + 2 * n) * QUANTIZATION_PRECISION_OUT)) = _
    rw [hqout]
    obtain ⟨h1, h2⟩ := abs_le.mp hf4
    exact wrap32_eq_self (by omega) (by omega)
  · have hr : List.range 8 = [0, 1, 2, 3, 4, 5, 6, 7] := rfl
    simp only [LoadDefaultNN, hr, List.foldl_cons, List.foldl_nil]
    norm_num

/-- C6 witness: the layout equalities at a concrete resource with
`nF = 2`, `n = 2` and small float values. -/
theorem c6_witness :
    (LoadDefaultNN 2 2 sampleEmbedA).weights.featureWeights 3 =
      roundHalfAway (sampleEmbedA.floatVal (3 + 3) * 32) ∧
    (LoadDefaultNN 2 2 sampleEmbedA).weights.hiddenBiases 1 =
      roundHalfAway (sampleEmbedA.floatVal (3 + 2 * 2 + 1) * 32) ∧
    (LoadDefaultNN 2 2 sampleEmbedA).weights.hiddenWeights 3 =
      roundHalfAway (sampleEmbedA.floatVal (3 + 2 * 2 + 2 + 3) * 512) ∧
    (LoadDefaultNN 2 2 sampleEmbedA).weights.outputBias =
      roundHalfAway (sampleEmbedA.floatVal (3 + 2 * 2 + 2 + 2 * 2) * 512) ∧
    (LoadDefaultNN 2 2 sampleEmbedA).hash =
      sampleEmbedA.byte 4 + sampleEmbedA.byte 5 * 256 + sampleEmbedA.byte 6 * 256 ^ 2 +
        sampleEmbedA.byte 7 * 256 ^ 3 + sampleEmbedA.byte 8 * 256 ^ 4 +
        sampleEmbedA.byte 9 * 256 ^ 5 + sampleEmbedA.byte 10 * 256 ^ 6 +
        sampleEmbedA.byte 11 * 256 ^ 7 :=
  c6_loader_layout 2 2 sampleEmbedA 3 1 3 (by decide) (by decide) (by decide)
    (by norm_num [roundHalfAway, sampleEmbedA])
    (by norm_num [roundHalfAway, sampleEmbedA])
    (by norm_num [roundHalfAway, sampleEmbedA])
    (by norm_num [roundHalfAway, sampleEmbedA])

/-! ### C9: the quantization error bound -/

/-- C9: for both precisions the loader uses, dequantizing a quantized
value recovers it to within half a quantization step, provided the
rounded value fits the 16-bit destination (the claim's stated
precondition). -/
theorem c9_quantization_bound (x : ℚ) (p : Int) (hp : p = 32 ∨ p = 512)
    (hlo : -32768 ≤ roundHalfAway (x * p)) (hhi : roundHalfAway (x * p) ≤ 32767) :
    |((LoadWeight x p : Int) : ℚ) / (p : ℚ) - x| ≤ 1 / (2 * (p : ℚ)) := by
  have hp0 : (0 : ℚ) < (p : ℚ) := by
    rcases hp with h | h <;> rw [h] <;> norm_num
  unfold LoadWeight
  rw [wrap16_eq_self hlo hhi]
  have hclose := roundHalfAway_close (x * (p : ℚ))
  have hpne : (p : ℚ) ≠ 0 := ne_of_gt hp0
  have habs : ((roundHalfAway (x * (p : ℚ)) : Int) : ℚ) / (p : ℚ) - x =
      (((roundHalfAway (x * (p : ℚ)) : Int) : ℚ) - x * (p : ℚ)) / (p : ℚ) := by
    field_simp
    ring
  have hsplit : 1 / (2 * (p : ℚ)) = (1 / 2) / (p : ℚ) := by
    ring
  rw [habs, abs_div, abs_of_pos hp0, hsplit]
  exact (div_le_div_iff_of_pos_right hp0).mpr hclose

/-- C9 witness: the bound at `x = 1/3`, `p = 32`. -/
theorem c9_witness :
    |((LoadWeight (1 / 3 : ℚ) 32 : Int) : ℚ) / ((32 : Int) : ℚ) - 1 / 3| ≤
      1 / (2 * ((32 : Int) : ℚ)) :=
  c9_quantization_bound (1 / 3) 32 (Or.inl rfl) (by norm_num [roundHalfAway])
    (by norm_num [roundHalfAway])

end Berserk
